import Mathlib

/-!
# Code-length extraction for the DEFLATE dynamic-Huffman header

A shallow embedding of `prepareForCodeLenCode`
(`compress/internal/codelencode/c/codes.c`) together with the properties of
its used-count scan, its empty-distance fallback and its packed-length
extraction.

Conventions of the embedding:

* `int32_t` entries are integers (`Int`) inside the 32-bit two's-complement
  range; `uint8_t` / `uint16_t` values are naturals, and every conversion to
  one of those types is an explicit reduction modulo `2^8` / `2^16`;
* the memory reachable through the four pointer arguments is the record `Mem`;
* a read or write outside an array is undefined behaviour in C and is the
  result `none` here, as is running out of loop fuel.
-/

namespace CodeLenCode

/-! ## Data model -/

/-- The values representable in an `int32_t`. -/
def Int32Range (x : Int) : Prop := -2147483648 ≤ x ∧ x ≤ 2147483647

instance (x : Int) : Decidable (Int32Range x) := by
  unfold Int32Range; infer_instance

/-- The C `struct Histogram`: 286 literal/length entries, two reserved words,
30 distance entries, two reserved words. -/
structure Histogram where
  LiteralCodes : List Int
  re : List Nat
  DistanceCodes : List Int
  re2 : List Nat
deriving DecidableEq

/-- The array sizes and element ranges fixed by the C declaration. -/
def Histogram.WF (hist : Histogram) : Prop :=
  hist.LiteralCodes.length = 286 ∧ hist.re.length = 2 ∧
  hist.DistanceCodes.length = 30 ∧ hist.re2.length = 2 ∧
  (∀ x ∈ hist.LiteralCodes, Int32Range x) ∧ (∀ x ∈ hist.re, x < 4294967296) ∧
  (∀ x ∈ hist.DistanceCodes, Int32Range x) ∧ (∀ x ∈ hist.re2, x < 4294967296)

instance (hist : Histogram) : Decidable hist.WF := by
  unfold Histogram.WF; infer_instance

/-- The memory seen by `prepareForCodeLenCode`: the histogram behind `hist`,
the byte buffer behind `source`, and the two `uint16_t` cells behind `lf`
and `df`. -/
structure Mem where
  hist : Histogram
  source : List Nat
  lf : Nat
  df : Nat
deriving DecidableEq

/-! ## Machine arithmetic -/

/-- Conversion of an `int` to `uint8_t`. -/
def toUInt8 (v : Int) : Nat := (v % 256).toNat

/-- Conversion of an `int` to `uint16_t`. -/
def toUInt16 (v : Int) : Nat := (v % 65536).toNat

/-- The expression `x >> 15` on an `int32_t` entry `x` (arithmetic right
shift): bits 15..31 of the word, the code-length field. -/
def shiftRight15 (x : Int) : Int := Int.shiftRight x 15

/-- The expression `(uint8_t)(x >> 15)` on an `int32_t` entry `x`. -/
def extract (x : Int) : Nat := toUInt8 (shiftRight15 x)

/-- The assignment `source[i] = b`; outside the buffer it is undefined. -/
def store (source : List Nat) (i : Nat) (b : Nat) : Option (List Nat) :=
  if i < source.length then some (source.set i b) else none

/-! ## The three loops and the function -/

/-- The loop `for (int32_t i = n - 1; i >= 0; i--)` whose body, when
`codes[i] != 0`, assigns `num = i + 1` and breaks, started with `num = 0`;
the result is the final `uint16_t num`.  The argument is `i + 1`, so `0` is
the exit `i = -1`. -/
def scanLoop (codes : List Int) : Nat → Option Nat
  | 0 => some 0
  | n + 1 =>
    match codes[n]? with
    | none => none
    | some c => if c ≠ 0 then some (toUInt16 ((n : Int) + 1)) else scanLoop codes n

/-- The loop `for (uint16_t i = ..; i < num; i++) source[base + i] =
(uint8_t)(codes[i] >> 15);` from counter value `i`, with a bound on the
number of iterations. -/
def extractLoop (codes : List Int) (base num : Nat) :
    Nat → Nat → List Nat → Option (List Nat)
  | 0, _, _ => none
  | fuel + 1, i, source =>
    if i < num then
      match codes[i]? with
      | none => none
      | some c =>
        match store source (base + i) (extract c) with
        | none => none
        | some source1 => extractLoop codes base num fuel ((i + 1) % 65536) source1
    else some source

/-- The function `prepareForCodeLenCode(hist, source, lf, df)`.  A `uint16_t`
counter takes at most 65536 values, which bounds each extraction loop. -/
def prepareForCodeLenCode (m : Mem) : Option Mem := do
  let lit_num ← scanLoop m.hist.LiteralCodes 286
  let dis_scan ← scanLoop m.hist.DistanceCodes 30
  let insertOneDistance : Nat := if dis_scan = 0 then 1 else 0
  let dis_num : Nat := if dis_scan = 0 then 1 else dis_scan
  let source1 ← extractLoop m.hist.LiteralCodes 0 lit_num 65536 0 m.source
  let source2 ← extractLoop m.hist.DistanceCodes lit_num dis_num 65536 0 source1
  let source3 ← if insertOneDistance ≠ 0 then store source2 lit_num 1 else some source2
  some { hist := m.hist, source := source3, lf := lit_num, df := dis_num }

/-! ## Postcondition and concrete inputs -/

/-- What a run from memory `m` to memory `post` establishes; `dscan` is the
value of `dis_num` after the distance scan, before the fallback. -/
structure Post (m post : Mem) (dscan : Nat) : Prop where
  hist_eq : post.hist = m.hist
  lf_le : post.lf ≤ 286
  lit_zero : ∀ j, post.lf ≤ j → j < 286 → m.hist.LiteralCodes[j]? = some 0
  lit_top : post.lf ≠ 0 → ∃ x, m.hist.LiteralCodes[post.lf - 1]? = some x ∧ x ≠ 0
  dscan_le : dscan ≤ 30
  dis_zero : ∀ j, dscan ≤ j → j < 30 → m.hist.DistanceCodes[j]? = some 0
  dis_top : dscan ≠ 0 → ∃ x, m.hist.DistanceCodes[dscan - 1]? = some x ∧ x ≠ 0
  df_eq : post.df = if dscan = 0 then 1 else dscan
  length_eq : post.source.length = m.source.length
  bytes : ∀ k, post.source[k]? =
    if k < post.lf then (m.hist.LiteralCodes[k]?).map extract
    else if k < post.lf + post.df then
      (if dscan = 0 then some 1 else (m.hist.DistanceCodes[k - post.lf]?).map extract)
    else m.source[k]?

/-- A histogram with the given entries and zeroed reserved words. -/
def histOf (lit dis : List Int) : Histogram :=
  { LiteralCodes := lit, re := [0, 0], DistanceCodes := dis, re2 := [0, 0] }

/-- A memory whose 316-byte buffer is filled with `0xAA` and whose count
cells hold `0xFFFF`. -/
def memOf (hist : Histogram) : Mem :=
  { hist := hist, source := List.replicate 316 170, lf := 65535, df := 65535 }

/-- Scenario A: literal index 5 has length 3, everything else is zero. -/
def memA : Mem :=
  memOf (histOf (List.replicate 5 0 ++ [3 * 32768] ++ List.replicate 280 0)
    (List.replicate 30 0))

/-- Scenario B: distance index 2 has length 4, everything else is zero. -/
def memB : Mem :=
  memOf (histOf (List.replicate 286 0)
    (List.replicate 2 0 ++ [4 * 32768] ++ List.replicate 27 0))

/-- Scenario C: every entry is zero. -/
def memC : Mem :=
  memOf (histOf (List.replicate 286 0) (List.replicate 30 0))

/-- Literal index 2 has length 3; literal index 7 has a zero length field
but a non-zero low part (the word 1). -/
def memLowLiteral : Mem :=
  memOf (histOf ([0, 0, 3 * 32768, 0, 0, 0, 0, 1] ++ List.replicate 278 0)
    (List.replicate 30 0))

/-- Every distance entry has a zero length field; distance index 3 has a
non-zero low part (the word 1). -/
def memLowDistance : Mem :=
  memOf (histOf (List.replicate 286 0) ([0, 0, 0, 1] ++ List.replicate 26 0))

/-- Literal index 5 packs length 3 with low part 77; distance index 2 packs
length 4 with low part 9. -/
def memPacked : Mem :=
  memOf (histOf (List.replicate 5 0 ++ [3 * 32768 + 77] ++ List.replicate 280 0)
    (List.replicate 2 0 ++ [4 * 32768 + 9] ++ List.replicate 27 0))

/-- Scenario A again, from another memory: a 400-byte buffer filled with 7
and other values in the count cells. -/
def memA2 : Mem :=
  { hist := memA.hist, source := List.replicate 400 7, lf := 1, df := 2 }

/-! ## The state before the fallback write -/

/-- The local variables at the test `if (insertOneDistance)`, after both
extraction loops; `source` is the buffer at that point. -/
structure Locals where
  source : List Nat
  lit_num : Nat
  dis_num : Nat
  insertOneDistance : Nat
deriving DecidableEq

/-- The function up to and including the second extraction loop. -/
def beforeFallback (m : Mem) : Option Locals := do
  let lit_num ← scanLoop m.hist.LiteralCodes 286
  let dis_scan ← scanLoop m.hist.DistanceCodes 30
  let insertOneDistance : Nat := if dis_scan = 0 then 1 else 0
  let dis_num : Nat := if dis_scan = 0 then 1 else dis_scan
  let source1 ← extractLoop m.hist.LiteralCodes 0 lit_num 65536 0 m.source
  let source2 ← extractLoop m.hist.DistanceCodes lit_num dis_num 65536 0 source1
  some { source := source2, lit_num := lit_num, dis_num := dis_num,
         insertOneDistance := insertOneDistance }

/-- The rest of the function: the conditional write `source[lit_num] = 1`
and the two stores through `lf` and `df`. -/
def afterFallback (m : Mem) (s : Locals) : Option Mem := do
  let source3 ←
    if s.insertOneDistance ≠ 0 then store s.source s.lit_num 1 else some s.source
  some { hist := m.hist, source := source3, lf := s.lit_num, df := s.dis_num }

/-! ## The function with a log of its memory accesses -/

/-- One observable step of a run: a read of a histogram entry, a write of a
buffer byte, or the assignment of a computed `int` value `v` (`i + 1` in a
scan, the increment `i++` in an extraction loop) to a `uint16_t` variable.
Assignments of the constants 0 and 1 are not logged. -/
inductive Access where
  | readLiteral (i : Nat)
  | readDistance (i : Nat)
  | writeSource (k : Nat)
  | setCounter (v : Nat)
deriving DecidableEq

/-- The scan loop `scanLoop`, returning the accesses it makes as well. -/
def scanLoopLog (rd : Nat → Access) (codes : List Int) : Nat → Option (Nat × List Access)
  | 0 => some (0, [])
  | n + 1 =>
    match codes[n]? with
    | none => none
    | some c =>
      if c ≠ 0 then some (toUInt16 ((n : Int) + 1), [rd n, Access.setCounter (n + 1)])
      else (scanLoopLog rd codes n).map (fun r => (r.1, rd n :: r.2))

/-- The extraction loop `extractLoop`, returning the accesses it makes as
well: per iteration the read of `codes[i]`, the write of `source[base + i]`
and the increment `i++`. -/
def extractLoopLog (rd : Nat → Access) (codes : List Int) (base num : Nat) :
    Nat → Nat → List Nat → Option (List Nat × List Access)
  | 0, _, _ => none
  | fuel + 1, i, source =>
    if i < num then
      match codes[i]? with
      | none => none
      | some c =>
        match store source (base + i) (extract c) with
        | none => none
        | some source1 =>
          (extractLoopLog rd codes base num fuel ((i + 1) % 65536) source1).map
            (fun r => (r.1, rd i :: Access.writeSource (base + i) ::
              Access.setCounter (i + 1) :: r.2))
    else some (source, [])

/-- The function `prepareForCodeLenCode`, returning the accesses it makes
as well, in program order. -/
def prepareLog (m : Mem) : Option (Mem × List Access) := do
  let (lit_num, log1) ← scanLoopLog Access.readLiteral m.hist.LiteralCodes 286
  let (dis_scan, log2) ← scanLoopLog Access.readDistance m.hist.DistanceCodes 30
  let insertOneDistance : Nat := if dis_scan = 0 then 1 else 0
  let dis_num : Nat := if dis_scan = 0 then 1 else dis_scan
  let (source1, log3) ←
    extractLoopLog Access.readLiteral m.hist.LiteralCodes 0 lit_num 65536 0 m.source
  let (source2, log4) ←
    extractLoopLog Access.readDistance m.hist.DistanceCodes lit_num dis_num 65536 0 source1
  let (source3, log5) ←
    if insertOneDistance ≠ 0 then
      (store source2 lit_num 1).map (fun s => (s, [Access.writeSource lit_num]))
    else some (source2, [])
  some ({ hist := m.hist, source := source3, lf := lit_num, df := dis_num },
    log1 ++ log2 ++ log3 ++ log4 ++ log5)

/-- The bound an access has to respect in a run that returns the counts
`lf` and `df`. -/
def Access.inBounds (lf df : Nat) : Access → Prop
  | Access.readLiteral i => i < 286
  | Access.readDistance i => i < 30
  | Access.writeSource k => k < lf + df
  | Access.setCounter v => v < 65536

/-! ## The loops in closed form -/

theorem toUInt16_succ (n : Nat) (h : n < 65535) : toUInt16 ((n : Int) + 1) = n + 1 := by
  unfold toUInt16
  omega

/-- The scan returns one past the highest index holding a non-zero word. -/
theorem scanLoop_spec (codes : List Int) (n : Nat) (hn : n ≤ codes.length)
    (hb : n < 65536) :
    ∃ c, scanLoop codes n = some c ∧ c ≤ n ∧
      (∀ j, c ≤ j → j < n → codes[j]? = some 0) ∧
      (c ≠ 0 → ∃ x, codes[c - 1]? = some x ∧ x ≠ 0) := by
  induction n with
  | zero => exact ⟨0, rfl, le_refl 0, fun j _ h => absurd h (Nat.not_lt_zero j), fun h => absurd rfl h⟩
  | succ n ih =>
    obtain ⟨c, hc, hle, hz, hnz⟩ := ih (by omega) (by omega)
    have hlt : n < codes.length := by omega
    by_cases hx : codes[n] = 0
    · refine ⟨c, ?_, by omega, ?_, hnz⟩
      · simp [scanLoop, List.getElem?_eq_getElem hlt, hx, hc]
      · intro j hj1 hj2
        by_cases hjn : j = n
        · subst hjn
          simp [List.getElem?_eq_getElem hlt, hx]
        · exact hz j hj1 (by omega)
    · refine ⟨n + 1, ?_, le_refl _, ?_, ?_⟩
      · simp [scanLoop, List.getElem?_eq_getElem hlt, hx, toUInt16_succ n (by omega)]
      · intro j hj1 hj2
        omega
      · intro _
        exact ⟨codes[n], by simp [List.getElem?_eq_getElem hlt], hx⟩

/-- The extraction loop writes `extract codes[k]` at `base + k` for every
`k` from the counter up to `num`, and nothing else. -/
theorem extractLoop_spec (codes : List Int) (base num : Nat) (hnum : num ≤ codes.length)
    (hb : num < 65536) (fuel : Nat) :
    ∀ (i : Nat) (source : List Nat), i ≤ num → num - i < fuel →
      base + num ≤ source.length →
      ∃ out, extractLoop codes base num fuel i source = some out ∧
        out.length = source.length ∧
        ∀ k, out[k]? =
          if base + i ≤ k ∧ k < base + num then (codes[k - base]?).map extract
          else source[k]? := by
  induction fuel with
  | zero => intro i source _ h; omega
  | succ fuel ih =>
    intro i source hi hfuel hlen
    by_cases hlt : i < num
    · have hci : i < codes.length := by omega
      have hsi : base + i < source.length := by omega
      obtain ⟨out, hout, hl, hk⟩ := ih (i + 1) (source.set (base + i) (extract codes[i]))
        (by omega) (by omega) (by simpa using hlen)
      refine ⟨out, ?_, by simpa using hl, ?_⟩
      · have hmod : (i + 1) % 65536 = i + 1 := Nat.mod_eq_of_lt (by omega)
        simp [extractLoop, hlt, List.getElem?_eq_getElem hci, store, hsi, hmod, hout]
      · intro k
        rw [hk k, List.getElem?_set]
        by_cases h1 : base + (i + 1) ≤ k ∧ k < base + num
        · have h2 : base + i ≤ k ∧ k < base + num := ⟨by omega, h1.2⟩
          simp [h1, h2]
        · by_cases h3 : base + i = k
          · subst h3
            have h2 : base + i ≤ base + i ∧ base + i < base + num := ⟨le_refl _, by omega⟩
            simp [h1, hsi, List.getElem?_eq_getElem hci, hlt]
          · have h2 : ¬ (base + i ≤ k ∧ k < base + num) := by omega
            simp [h1, h2, h3]
    · refine ⟨source, by simp [extractLoop, hlt], rfl, ?_⟩
      intro k
      have h2 : ¬ (base + i ≤ k ∧ k < base + num) := by omega
      simp [h2]

/-- On a well-formed histogram and a buffer of at least 316 bytes the function
returns, and its result is described by `Post`. -/
theorem prepare_spec (m : Mem) (hwf : m.hist.WF) (hlen : 316 ≤ m.source.length) :
    ∃ post dscan, prepareForCodeLenCode m = some post ∧ Post m post dscan := by
  obtain ⟨hL, -, hD, -⟩ := hwf
  obtain ⟨lit, hlit, hlitle, hlz, hlt⟩ :=
    scanLoop_spec m.hist.LiteralCodes 286 (by omega) (by omega)
  obtain ⟨dscan, hdis, hdisle, hdz, hdt⟩ :=
    scanLoop_spec m.hist.DistanceCodes 30 (by omega) (by omega)
  obtain ⟨out1, hout1, hl1, hb1⟩ :=
    extractLoop_spec m.hist.LiteralCodes 0 lit (by omega) (by omega) 65536 0 m.source
      (by omega) (by omega) (by omega)
  by_cases hz : dscan = 0
  · subst hz
    obtain ⟨out2, hout2, hl2, hb2⟩ :=
      extractLoop_spec m.hist.DistanceCodes lit 1 (by omega) (by omega) 65536 0 out1
        (by omega) (by omega) (by omega)
    have hst : lit < out2.length := by omega
    refine ⟨⟨m.hist, out2.set lit 1, lit, 1⟩, 0, ?_, ?_⟩
    · simp [prepareForCodeLenCode, hlit, hdis, hout1, hout2, store, hst]
    · refine ⟨rfl, hlitle, hlz, hlt, hdisle, hdz, hdt, by simp, ?_, ?_⟩
      · simp only [List.length_set]; omega
      · intro k
        simp only [List.getElem?_set, hb2 k, hb1 k]
        by_cases h1 : k < lit
        · have h2 : ¬ lit = k := by omega
          have h3 : ¬ (lit + 0 ≤ k ∧ k < lit + 1) := by omega
          simp [h1, h2, h3]
        · by_cases h2 : lit = k
          · subst h2
            simp [hst]
          · have h3 : ¬ (lit + 0 ≤ k ∧ k < lit + 1) := by omega
            have h4 : ¬ k < lit + 1 := by omega
            simp [h1, h2, h3, h4]
  · obtain ⟨out2, hout2, hl2, hb2⟩ :=
      extractLoop_spec m.hist.DistanceCodes lit dscan (by omega) (by omega) 65536 0 out1
        (by omega) (by omega) (by omega)
    refine ⟨⟨m.hist, out2, lit, dscan⟩, dscan, ?_, ?_⟩
    · simp [prepareForCodeLenCode, hlit, hdis, hout1, hout2, hz]
    · refine ⟨rfl, hlitle, hlz, hlt, hdisle, hdz, hdt, by simp [hz],
        (by show out2.length = m.source.length; omega), ?_⟩
      intro k
      simp only [hb2 k, hb1 k]
      by_cases h1 : k < lit
      · have h3 : ¬ (lit + 0 ≤ k ∧ k < lit + dscan) := by omega
        simp [h1, h3]
      · by_cases h2 : k < lit + dscan
        · have h3 : lit + 0 ≤ k ∧ k < lit + dscan := by omega
          simp [h1, h2, h3, hz]
        · have h3 : ¬ (lit + 0 ≤ k ∧ k < lit + dscan) := by omega
          simp [h1, h2, h3]

/-- A scan result is determined by the highest non-zero entry. -/
theorem top_unique (codes : List Int) (n c i : Nat) (x : Int) (hlen : codes.length = n)
    (hz : ∀ j, c ≤ j → j < n → codes[j]? = some 0)
    (ht : c ≠ 0 → ∃ y, codes[c - 1]? = some y ∧ y ≠ 0) (hc : c ≤ n)
    (hi : codes[i]? = some x) (hx : x ≠ 0)
    (habove : ∀ j, j < n → i < j → codes[j]? = some 0) : c = i + 1 := by
  have hin : i < n := by
    rcases Nat.lt_or_ge i codes.length with h | h
    · omega
    · rw [List.getElem?_eq_none h] at hi
      exact absurd hi (by simp)
  by_contra hne
  rcases Nat.lt_or_ge i c with h | h
  · have hc0 : c ≠ 0 := by omega
    obtain ⟨y, hy, hy0⟩ := ht hc0
    have := habove (c - 1) (by omega) (by omega)
    rw [hy] at this
    exact hy0 (Option.some.inj this)
  · have := hz i h hin
    rw [hi] at this
    exact hx (Option.some.inj this)

/-- A scan result is zero exactly when every entry is the zero word. -/
theorem scan_zero_iff (codes : List Int) (n c : Nat) (hlen : codes.length = n)
    (hz : ∀ j, c ≤ j → j < n → codes[j]? = some 0)
    (ht : c ≠ 0 → ∃ y, codes[c - 1]? = some y ∧ y ≠ 0) :
    c = 0 ↔ ∀ y ∈ codes, y = 0 := by
  constructor
  · intro h0 y hy
    obtain ⟨j, hj, rfl⟩ := List.mem_iff_getElem.mp hy
    have := hz j (by omega) (by omega)
    rw [List.getElem?_eq_getElem hj] at this
    exact Option.some.inj this
  · intro hall
    by_contra hc0
    obtain ⟨y, hy, hy0⟩ := ht hc0
    exact hy0 (hall y (List.getElem?_mem hy))

theorem Post.dscan_zero_iff {m post : Mem} {dscan : Nat} (P : Post m post dscan)
    (hwf : m.hist.WF) : dscan = 0 ↔ ∀ y ∈ m.hist.DistanceCodes, y = 0 :=
  scan_zero_iff m.hist.DistanceCodes 30 dscan hwf.2.2.1 P.dis_zero P.dis_top

theorem Post.lf_zero_iff {m post : Mem} {dscan : Nat} (P : Post m post dscan)
    (hwf : m.hist.WF) : post.lf = 0 ↔ ∀ y ∈ m.hist.LiteralCodes, y = 0 :=
  scan_zero_iff m.hist.LiteralCodes 286 post.lf hwf.1 P.lit_zero P.lit_top

theorem Post.df_pos {m post : Mem} {dscan : Nat} (P : Post m post dscan) :
    1 ≤ post.df ∧ post.df ≤ 30 ∧ dscan ≤ post.df := by
  have h1 := P.df_eq
  have h2 := P.dscan_le
  split at h1 <;> omega

/-- Every byte of the literal segment is the extraction of the entry with
the same index. -/
theorem Post.lit_byte {m post : Mem} {dscan : Nat} (P : Post m post dscan)
    (hwf : m.hist.WF) (k : Nat) (hk : k < post.lf) :
    ∃ x, m.hist.LiteralCodes[k]? = some x ∧ post.source[k]? = some (extract x) := by
  have hlt : k < m.hist.LiteralCodes.length := by
    have := P.lf_le
    have := hwf.1
    omega
  refine ⟨m.hist.LiteralCodes[k], List.getElem?_eq_getElem hlt, ?_⟩
  rw [P.bytes k]
  simp [hk, List.getElem?_eq_getElem hlt]

/-- Every byte of the distance segment is the fallback value when the scan
found nothing, and otherwise the extraction of the entry with the same
index. -/
theorem Post.dis_byte {m post : Mem} {dscan : Nat} (P : Post m post dscan)
    (hwf : m.hist.WF) (k : Nat) (hk : k < post.df) :
    ∃ x, m.hist.DistanceCodes[k]? = some x ∧
      post.source[post.lf + k]? = some (if dscan = 0 then 1 else extract x) := by
  have hlt : k < m.hist.DistanceCodes.length := by
    have := P.df_pos
    have := hwf.2.2.1
    omega
  refine ⟨m.hist.DistanceCodes[k], List.getElem?_eq_getElem hlt, ?_⟩
  rw [P.bytes (post.lf + k)]
  have h1 : ¬ post.lf + k < post.lf := by omega
  have h2 : post.lf + k < post.lf + post.df := by omega
  by_cases hz : dscan = 0
  · simp [h1, h2, hz]
  · simp [h1, h2, hz, List.getElem?_eq_getElem hlt]

/-! ## Extraction arithmetic -/

theorem shiftRight15_eq_div (x : Int) : shiftRight15 x = x / 32768 := by
  have h := Int.shiftRight_eq_div_pow x 15
  simpa [shiftRight15] using h

theorem extract_of_zero_field (x : Int) (h : shiftRight15 x = 0) : extract x = 0 := by
  unfold extract toUInt8
  rw [h]
  rfl

theorem extract_small (x : Int) (h0 : 0 ≤ shiftRight15 x) (h1 : shiftRight15 x ≤ 15) :
    extract x ≤ 15 := by
  unfold extract toUInt8
  omega

theorem extract_packed (len freq : Nat) (hlen : len ≤ 15) (hfreq : freq < 32768) :
    extract ((len : Int) * 32768 + (freq : Int)) = len := by
  unfold extract toUInt8
  rw [shiftRight15_eq_div]
  omega

/-! ## Output layout and used counts -/

/-- C1: after a run that returns the counts `lf` and `df`, byte `k` of the
buffer is `(uint8_t)(LiteralCodes[k] >> 15)` for every `k < lf`, and byte
`lf + k` is `(uint8_t)(DistanceCodes[k] >> 15)` for every `k < df`, except
that the byte at index `lf` is 1 when every distance entry is zero. -/
theorem output_layout (m : Mem) (hwf : m.hist.WF) (hlen : 316 ≤ m.source.length) :
    ∃ post, prepareForCodeLenCode m = some post ∧
      (∀ k, k < post.lf → ∃ x, m.hist.LiteralCodes[k]? = some x ∧
        post.source[k]? = some (extract x)) ∧
      (∀ k, k < post.df → ∃ x, m.hist.DistanceCodes[k]? = some x ∧
        post.source[post.lf + k]? =
          some (if k = 0 ∧ ∀ y ∈ m.hist.DistanceCodes, y = 0 then 1 else extract x)) := by
  obtain ⟨post, dscan, hrun, P⟩ := prepare_spec m hwf hlen
  refine ⟨post, hrun, P.lit_byte hwf, ?_⟩
  intro k hk
  obtain ⟨x, hx, hb⟩ := P.dis_byte hwf k hk
  refine ⟨x, hx, ?_⟩
  rw [hb]
  by_cases hz : dscan = 0
  · have hall := (P.dscan_zero_iff hwf).mp hz
    have hk0 : k = 0 := by
      have := P.df_eq
      rw [if_pos hz] at this
      omega
    rw [if_pos hz, if_pos ⟨hk0, hall⟩]
  · have hall : ¬ ∀ y ∈ m.hist.DistanceCodes, y = 0 := fun h => hz ((P.dscan_zero_iff hwf).mpr h)
    rw [if_neg hz, if_neg (fun h => hall h.2)]

set_option maxRecDepth 100000 in
/-- Scenario A run through `output_layout`: the counts are (6, 1) and the
output is `[0,0,0,0,0,3,1]`. -/
theorem output_layout_scenarioA :
    memA.hist.WF ∧ 316 ≤ memA.source.length ∧
    (∃ post, prepareForCodeLenCode memA = some post ∧
      (∀ k, k < post.lf → ∃ x, memA.hist.LiteralCodes[k]? = some x ∧
        post.source[k]? = some (extract x)) ∧
      (∀ k, k < post.df → ∃ x, memA.hist.DistanceCodes[k]? = some x ∧
        post.source[post.lf + k]? =
          some (if k = 0 ∧ ∀ y ∈ memA.hist.DistanceCodes, y = 0 then 1 else extract x))) ∧
    (prepareForCodeLenCode memA).map (fun post => (post.lf, post.df, post.source.take 7))
      = some (6, 1, [0, 0, 0, 0, 0, 3, 1]) := by
  have hwf : memA.hist.WF := by decide
  have hlen : 316 ≤ memA.source.length := by decide
  exact ⟨hwf, hlen, output_layout memA hwf hlen, by decide⟩

/-- C2: when the literal entry at index `i` is non-zero and every literal
entry above `i` is zero, the returned literal count is `i + 1`. -/
theorem literal_count (m : Mem) (i : Nat) (x : Int) (hwf : m.hist.WF)
    (hlen : 316 ≤ m.source.length) (hi : m.hist.LiteralCodes[i]? = some x) (hx : x ≠ 0)
    (habove : ∀ j, j < 286 → i < j → m.hist.LiteralCodes[j]? = some 0) :
    ∃ post, prepareForCodeLenCode m = some post ∧ post.lf = i + 1 := by
  obtain ⟨post, dscan, hrun, P⟩ := prepare_spec m hwf hlen
  exact ⟨post, hrun, top_unique m.hist.LiteralCodes 286 post.lf i x hwf.1 P.lit_zero
    P.lit_top P.lf_le hi hx habove⟩

set_option maxRecDepth 100000 in
/-- The hypotheses of `literal_count` hold in scenario A with `i = 5`. -/
theorem literal_count_scenarioA :
    memA.hist.WF ∧ 316 ≤ memA.source.length ∧
    memA.hist.LiteralCodes[5]? = some 98304 ∧ (98304 : Int) ≠ 0 ∧
    (∀ j, j < 286 → 5 < j → memA.hist.LiteralCodes[j]? = some 0) ∧
    ∃ post, prepareForCodeLenCode memA = some post ∧ post.lf = 5 + 1 := by
  have hwf : memA.hist.WF := by decide
  have hlen : 316 ≤ memA.source.length := by decide
  have hi : memA.hist.LiteralCodes[5]? = some 98304 := by decide
  have hx : (98304 : Int) ≠ 0 := by decide
  have habove : ∀ j, j < 286 → 5 < j → memA.hist.LiteralCodes[j]? = some 0 := by decide
  exact ⟨hwf, hlen, hi, hx, habove, literal_count memA 5 98304 hwf hlen hi hx habove⟩

/-- C3: when the distance entry at index `j` is non-zero and every distance
entry above `j` is zero, the returned distance count is `j + 1`, the byte at
index `lf + j` is `(uint8_t)(DistanceCodes[j] >> 15)`, and every byte of the
distance segment is the extraction of its entry: the value 1 is not
injected, also when `j = 0`. -/
theorem distance_count (m : Mem) (j : Nat) (x : Int) (hwf : m.hist.WF)
    (hlen : 316 ≤ m.source.length) (hj : m.hist.DistanceCodes[j]? = some x) (hx : x ≠ 0)
    (habove : ∀ k, k < 30 → j < k → m.hist.DistanceCodes[k]? = some 0) :
    ∃ post, prepareForCodeLenCode m = some post ∧ post.df = j + 1 ∧
      post.source[post.lf + j]? = some (extract x) ∧
      ∀ k, k < post.df → ∃ y, m.hist.DistanceCodes[k]? = some y ∧
        post.source[post.lf + k]? = some (extract y) := by
  obtain ⟨post, dscan, hrun, P⟩ := prepare_spec m hwf hlen
  have hd : dscan = j + 1 :=
    top_unique m.hist.DistanceCodes 30 dscan j x hwf.2.2.1 P.dis_zero P.dis_top
      P.dscan_le hj hx habove
  have hz : dscan ≠ 0 := by omega
  have hdf : post.df = j + 1 := by
    have := P.df_eq
    rw [if_neg hz] at this
    omega
  have hall : ∀ k, k < post.df → ∃ y, m.hist.DistanceCodes[k]? = some y ∧
      post.source[post.lf + k]? = some (extract y) := by
    intro k hk
    obtain ⟨y, hy, hb⟩ := P.dis_byte hwf k hk
    rw [if_neg hz] at hb
    exact ⟨y, hy, hb⟩
  refine ⟨post, hrun, hdf, ?_, hall⟩
  obtain ⟨y, hy, hb⟩ := hall j (by omega)
  rw [hj] at hy
  rw [hb, ← Option.some.inj hy]

set_option maxRecDepth 100000 in
/-- Scenario B run through `distance_count` with `j = 2`: the counts are
(0, 3) and the output is `[0,0,4]`. -/
theorem distance_count_scenarioB :
    memB.hist.WF ∧ 316 ≤ memB.source.length ∧
    memB.hist.DistanceCodes[2]? = some 131072 ∧ (131072 : Int) ≠ 0 ∧
    (∀ k, k < 30 → 2 < k → memB.hist.DistanceCodes[k]? = some 0) ∧
    (∃ post, prepareForCodeLenCode memB = some post ∧ post.df = 2 + 1 ∧
      post.source[post.lf + 2]? = some (extract 131072) ∧
      ∀ k, k < post.df → ∃ y, memB.hist.DistanceCodes[k]? = some y ∧
        post.source[post.lf + k]? = some (extract y)) ∧
    (prepareForCodeLenCode memB).map (fun post => (post.lf, post.df, post.source.take 3))
      = some (0, 3, [0, 0, 4]) := by
  have hwf : memB.hist.WF := by decide
  have hlen : 316 ≤ memB.source.length := by decide
  have hj : memB.hist.DistanceCodes[2]? = some 131072 := by decide
  have hx : (131072 : Int) ≠ 0 := by decide
  have habove : ∀ k, k < 30 → 2 < k → memB.hist.DistanceCodes[k]? = some 0 := by decide
  exact ⟨hwf, hlen, hj, hx, habove, distance_count memB 2 131072 hwf hlen hj hx habove,
    by decide⟩

/-- C4: when every distance entry is zero, whatever the literal entries
are, the returned distance count is 1 and the byte at index `lf` is 1. -/
theorem empty_distance_fallback (m : Mem) (hwf : m.hist.WF)
    (hlen : 316 ≤ m.source.length) (hzero : ∀ y ∈ m.hist.DistanceCodes, y = 0) :
    ∃ post, prepareForCodeLenCode m = some post ∧ post.df = 1 ∧
      post.source[post.lf]? = some 1 := by
  obtain ⟨post, dscan, hrun, P⟩ := prepare_spec m hwf hlen
  have hz : dscan = 0 := (P.dscan_zero_iff hwf).mpr hzero
  have hdf : post.df = 1 := by
    have := P.df_eq
    rw [if_pos hz] at this
    exact this
  refine ⟨post, hrun, hdf, ?_⟩
  obtain ⟨y, -, hb⟩ := P.dis_byte hwf 0 (by omega)
  rw [if_pos hz] at hb
  exact hb

set_option maxRecDepth 100000 in
/-- Scenario C run through `empty_distance_fallback`: the counts are (0, 1)
and the output is `[1]`. -/
theorem empty_distance_fallback_scenarioC :
    memC.hist.WF ∧ 316 ≤ memC.source.length ∧ (∀ y ∈ memC.hist.DistanceCodes, y = 0) ∧
    (∃ post, prepareForCodeLenCode memC = some post ∧ post.df = 1 ∧
      post.source[post.lf]? = some 1) ∧
    (prepareForCodeLenCode memC).map (fun post => (post.lf, post.df, post.source.take 1))
      = some (0, 1, [1]) := by
  have hwf : memC.hist.WF := by decide
  have hlen : 316 ≤ memC.source.length := by decide
  have hzero : ∀ y ∈ memC.hist.DistanceCodes, y = 0 := by decide
  exact ⟨hwf, hlen, hzero, empty_distance_fallback memC hwf hlen hzero, by decide⟩

/-! ## The scan tests the whole word -/

set_option maxRecDepth 100000 in
/-- C5, counterexample: in `memLowLiteral` the highest literal index with a
non-zero code-length field is 2, yet the returned literal count is 8, not 3:
the word at index 7, whose bits 0..14 alone are set, is counted. -/
theorem literal_count_low_bits_counterexample :
    memLowLiteral.hist.WF ∧ 316 ≤ memLowLiteral.source.length ∧
    (∃ x, memLowLiteral.hist.LiteralCodes[2]? = some x ∧ shiftRight15 x ≠ 0) ∧
    (∀ j, j < 286 → 2 < j →
      ∃ y, memLowLiteral.hist.LiteralCodes[j]? = some y ∧ shiftRight15 y = 0) ∧
    (prepareForCodeLenCode memLowLiteral).map (fun post => post.lf) = some 8 ∧
    (8 : Nat) ≠ 2 + 1 :=
  ⟨by decide, by decide, ⟨98304, by decide, by decide⟩, by decide, by decide, by decide⟩

/-- C5, amended: the returned literal count is `i + 1` for the highest
literal index `i` whose 32-bit word is non-zero, bits 0..14 included, and 0
when every literal word is zero; it is the count the claim describes for
every histogram in which an entry with a zero code-length field is the zero
word. -/
theorem literal_count_whole_word (m : Mem) (hwf : m.hist.WF)
    (hlen : 316 ≤ m.source.length) :
    ∃ post, prepareForCodeLenCode m = some post ∧
      ((∀ y ∈ m.hist.LiteralCodes, y = 0) → post.lf = 0) ∧
      (∀ i x, m.hist.LiteralCodes[i]? = some x → x ≠ 0 →
        (∀ j, j < 286 → i < j → m.hist.LiteralCodes[j]? = some 0) → post.lf = i + 1) ∧
      ((∀ y ∈ m.hist.LiteralCodes, shiftRight15 y = 0 → y = 0) →
        ((∀ y ∈ m.hist.LiteralCodes, shiftRight15 y = 0) → post.lf = 0) ∧
        (∀ i x, m.hist.LiteralCodes[i]? = some x → shiftRight15 x ≠ 0 →
          (∀ j, j < 286 → i < j →
            ∃ y, m.hist.LiteralCodes[j]? = some y ∧ shiftRight15 y = 0) →
          post.lf = i + 1)) := by
  obtain ⟨post, dscan, hrun, P⟩ := prepare_spec m hwf hlen
  have hzero : (∀ y ∈ m.hist.LiteralCodes, y = 0) → post.lf = 0 := (P.lf_zero_iff hwf).mpr
  have htop : ∀ i x, m.hist.LiteralCodes[i]? = some x → x ≠ 0 →
      (∀ j, j < 286 → i < j → m.hist.LiteralCodes[j]? = some 0) → post.lf = i + 1 :=
    fun i x hi hx habove =>
      top_unique m.hist.LiteralCodes 286 post.lf i x hwf.1 P.lit_zero P.lit_top P.lf_le
        hi hx habove
  refine ⟨post, hrun, hzero, htop, ?_⟩
  intro hinv
  refine ⟨fun hall => hzero (fun y hy => hinv y hy (hall y hy)), ?_⟩
  intro i x hi hx habove
  refine htop i x hi ?_ ?_
  · intro hx0
    subst hx0
    exact hx (by decide)
  · intro j hj hij
    obtain ⟨y, hy, hy0⟩ := habove j hj hij
    rw [hy, hinv y (List.getElem?_mem hy) hy0]

set_option maxRecDepth 100000 in
/-- In `memLowLiteral` the highest non-zero literal word is at index 7 and
the returned literal count is 8. -/
theorem literal_count_whole_word_witness :
    memLowLiteral.hist.WF ∧ 316 ≤ memLowLiteral.source.length ∧
    ∃ post, prepareForCodeLenCode memLowLiteral = some post ∧ post.lf = 7 + 1 := by
  have hwf : memLowLiteral.hist.WF := by decide
  have hlen : 316 ≤ memLowLiteral.source.length := by decide
  obtain ⟨post, hrun, -, htop, -⟩ := literal_count_whole_word memLowLiteral hwf hlen
  exact ⟨hwf, hlen, post, hrun, htop 7 1 (by decide) (by decide) (by decide)⟩

set_option maxRecDepth 100000 in
/-- C6, counterexample: in `memLowDistance` no distance entry has a non-zero
code-length field, yet the returned distance count is 4, not 1, and the byte
at index `lf` is 0, not 1. -/
theorem empty_length_fields_counterexample :
    memLowDistance.hist.WF ∧ 316 ≤ memLowDistance.source.length ∧
    (∀ y ∈ memLowDistance.hist.DistanceCodes, shiftRight15 y = 0) ∧
    (prepareForCodeLenCode memLowDistance).map
      (fun post => (post.df, post.source[post.lf]?)) = some (4, some 0) :=
  ⟨by decide, by decide, by decide, by decide⟩

/-- C6, amended: in a histogram in which no distance entry has a non-zero
code-length field, the returned distance count is 1 and the byte at index
`lf` is 1 when every distance entry is the zero word; when some distance
word is non-zero the count is one past the highest non-zero word and every
byte of the distance segment is 0. -/
theorem empty_length_fields (m : Mem) (hwf : m.hist.WF) (hlen : 316 ≤ m.source.length)
    (hfield : ∀ y ∈ m.hist.DistanceCodes, shiftRight15 y = 0) :
    ∃ post, prepareForCodeLenCode m = some post ∧
      ((∀ y ∈ m.hist.DistanceCodes, y = 0) →
        post.df = 1 ∧ post.source[post.lf]? = some 1) ∧
      (¬ (∀ y ∈ m.hist.DistanceCodes, y = 0) →
        (∃ x, m.hist.DistanceCodes[post.df - 1]? = some x ∧ x ≠ 0) ∧
        (∀ k, post.df ≤ k → k < 30 → m.hist.DistanceCodes[k]? = some 0) ∧
        ∀ k, k < post.df → post.source[post.lf + k]? = some 0) := by
  obtain ⟨post, dscan, hrun, P⟩ := prepare_spec m hwf hlen
  refine ⟨post, hrun, ?_, ?_⟩
  · intro hzero
    have hz : dscan = 0 := (P.dscan_zero_iff hwf).mpr hzero
    have hdf : post.df = 1 := by
      have := P.df_eq
      rw [if_pos hz] at this
      exact this
    refine ⟨hdf, ?_⟩
    obtain ⟨y, -, hb⟩ := P.dis_byte hwf 0 (by omega)
    rw [if_pos hz] at hb
    exact hb
  · intro hsome
    have hz : dscan ≠ 0 := fun h => hsome ((P.dscan_zero_iff hwf).mp h)
    have hdf : post.df = dscan := by
      have := P.df_eq
      rw [if_neg hz] at this
      exact this
    refine ⟨?_, ?_, ?_⟩
    · rw [hdf]
      exact P.dis_top hz
    · rw [hdf]
      exact P.dis_zero
    · intro k hk
      obtain ⟨y, hy, hb⟩ := P.dis_byte hwf k hk
      rw [if_neg hz, extract_of_zero_field y (hfield y (List.getElem?_mem hy))] at hb
      exact hb

set_option maxRecDepth 100000 in
/-- The hypotheses of `empty_length_fields` hold in `memLowDistance`, where
the four distance bytes are 0. -/
theorem empty_length_fields_witness :
    memLowDistance.hist.WF ∧ 316 ≤ memLowDistance.source.length ∧
    (∀ y ∈ memLowDistance.hist.DistanceCodes, shiftRight15 y = 0) ∧
    ∃ post, prepareForCodeLenCode memLowDistance = some post ∧
      ∀ k, k < post.df → post.source[post.lf + k]? = some 0 := by
  have hwf : memLowDistance.hist.WF := by decide
  have hlen : 316 ≤ memLowDistance.source.length := by decide
  have hfield : ∀ y ∈ memLowDistance.hist.DistanceCodes, shiftRight15 y = 0 := by decide
  obtain ⟨post, hrun, -, hsome⟩ := empty_length_fields memLowDistance hwf hlen hfield
  exact ⟨hwf, hlen, hfield, post, hrun, (hsome (by decide)).2.2⟩

/-! ## Range of the emitted bytes -/

/-- C7: for every histogram whose code-length fields `x >> 15` all lie in
[0,15], as the stage that assigns the lengths guarantees, every byte emitted
(indices `0 .. lf + df - 1`) lies in [0,15]. -/
theorem emitted_byte_range (m : Mem) (hwf : m.hist.WF) (hlen : 316 ≤ m.source.length)
    (hL : ∀ y ∈ m.hist.LiteralCodes, 0 ≤ shiftRight15 y ∧ shiftRight15 y ≤ 15)
    (hD : ∀ y ∈ m.hist.DistanceCodes, 0 ≤ shiftRight15 y ∧ shiftRight15 y ≤ 15) :
    ∃ post, prepareForCodeLenCode m = some post ∧
      ∀ k, k < post.lf + post.df → ∃ b, post.source[k]? = some b ∧ 0 ≤ b ∧ b ≤ 15 := by
  obtain ⟨post, dscan, hrun, P⟩ := prepare_spec m hwf hlen
  refine ⟨post, hrun, ?_⟩
  intro k hk
  by_cases hlt : k < post.lf
  · obtain ⟨x, hx, hb⟩ := P.lit_byte hwf k hlt
    have hy := hL x (List.getElem?_mem hx)
    exact ⟨extract x, hb, Nat.zero_le _, extract_small x hy.1 hy.2⟩
  · obtain ⟨x, hx, hb⟩ := P.dis_byte hwf (k - post.lf) (by omega)
    have hidx : post.lf + (k - post.lf) = k := by omega
    rw [hidx] at hb
    refine ⟨_, hb, Nat.zero_le _, ?_⟩
    by_cases hz : dscan = 0
    · rw [if_pos hz]
      omega
    · rw [if_neg hz]
      have hy := hD x (List.getElem?_mem hx)
      exact extract_small x hy.1 hy.2

set_option maxRecDepth 100000 in
/-- In `memPacked` every code-length field lies in [0,15] (the fields are 0,
3 and 4), and so does every emitted byte. -/
theorem emitted_byte_range_witness :
    memPacked.hist.WF ∧ 316 ≤ memPacked.source.length ∧
    (∀ y ∈ memPacked.hist.LiteralCodes, 0 ≤ shiftRight15 y ∧ shiftRight15 y ≤ 15) ∧
    (∀ y ∈ memPacked.hist.DistanceCodes, 0 ≤ shiftRight15 y ∧ shiftRight15 y ≤ 15) ∧
    ∃ post, prepareForCodeLenCode memPacked = some post ∧
      ∀ k, k < post.lf + post.df → ∃ b, post.source[k]? = some b ∧ 0 ≤ b ∧ b ≤ 15 := by
  have hwf : memPacked.hist.WF := by decide
  have hlen : 316 ≤ memPacked.source.length := by decide
  have hL : ∀ y ∈ memPacked.hist.LiteralCodes,
      0 ≤ shiftRight15 y ∧ shiftRight15 y ≤ 15 := by
    decide
  have hD : ∀ y ∈ memPacked.hist.DistanceCodes,
      0 ≤ shiftRight15 y ∧ shiftRight15 y ≤ 15 := by
    decide
  exact ⟨hwf, hlen, hL, hD, emitted_byte_range memPacked hwf hlen hL hD⟩

/-! ## Extraction against packing -/

/-- C8: for an index `k` inside a used prefix whose entry is
`len * 2^15 + freq` with `len ≤ 15` and `freq < 2^15`, the byte emitted for
`k` is `len`, whatever `freq` is; the one exception is the first distance
byte when the fallback overwrites it, that is when every distance entry is
zero. -/
theorem extraction_undoes_packing (m : Mem) (hwf : m.hist.WF)
    (hlen : 316 ≤ m.source.length) :
    ∃ post, prepareForCodeLenCode m = some post ∧
      (∀ (k len freq : Nat), k < post.lf → len ≤ 15 → freq < 32768 →
        m.hist.LiteralCodes[k]? = some ((len : Int) * 32768 + (freq : Int)) →
        post.source[k]? = some len) ∧
      (∀ (k len freq : Nat), k < post.df → len ≤ 15 → freq < 32768 →
        m.hist.DistanceCodes[k]? = some ((len : Int) * 32768 + (freq : Int)) →
        ¬ (k = 0 ∧ ∀ y ∈ m.hist.DistanceCodes, y = 0) →
        post.source[post.lf + k]? = some len) := by
  obtain ⟨post, dscan, hrun, P⟩ := prepare_spec m hwf hlen
  refine ⟨post, hrun, ?_, ?_⟩
  · intro k len freq hk hl hf he
    obtain ⟨x, hx, hb⟩ := P.lit_byte hwf k hk
    rw [he] at hx
    rw [hb, ← Option.some.inj hx, extract_packed len freq hl hf]
  · intro k len freq hk hl hf he hnf
    obtain ⟨x, hx, hb⟩ := P.dis_byte hwf k hk
    rw [he] at hx
    have hz : dscan ≠ 0 := by
      intro hz
      have hk0 : k = 0 := by
        have := P.df_eq
        rw [if_pos hz] at this
        omega
      exact hnf ⟨hk0, (P.dscan_zero_iff hwf).mp hz⟩
    rw [hb, if_neg hz, ← Option.some.inj hx, extract_packed len freq hl hf]

set_option maxRecDepth 100000 in
/-- In `memPacked` literal 5 packs (3, 77) and distance 2 packs (4, 9); the
bytes emitted for them are 3 and 4. -/
theorem extraction_undoes_packing_witness :
    memPacked.hist.WF ∧ 316 ≤ memPacked.source.length ∧
    ∃ post, prepareForCodeLenCode memPacked = some post ∧
      post.source[5]? = some 3 ∧ post.source[post.lf + 2]? = some 4 := by
  have hwf : memPacked.hist.WF := by decide
  have hlen : 316 ≤ memPacked.source.length := by decide
  obtain ⟨post, hrun, hlit, hdis⟩ := extraction_undoes_packing memPacked hwf hlen
  have hcounts : (prepareForCodeLenCode memPacked).map (fun p => (p.lf, p.df))
      = some (6, 3) := by decide
  rw [hrun] at hcounts
  have hlf : post.lf = 6 := congrArg Prod.fst (Option.some.inj hcounts)
  have hdf : post.df = 3 := congrArg Prod.snd (Option.some.inj hcounts)
  exact ⟨hwf, hlen, post, hrun,
    hlit 5 3 77 (by omega) (by decide) (by decide) (by decide),
    hdis 2 4 9 (by omega) (by decide) (by decide) (by decide) (by decide)⟩

/-! ## Nothing used lies beyond the counts -/

/-- C9: every literal entry at an index `≥ lf` and every distance entry at
an index `≥ df` has a zero code-length field (`x >> 15 == 0`). -/
theorem no_used_symbol_dropped (m : Mem) (hwf : m.hist.WF)
    (hlen : 316 ≤ m.source.length) :
    ∃ post, prepareForCodeLenCode m = some post ∧
      (∀ k x, post.lf ≤ k → m.hist.LiteralCodes[k]? = some x → shiftRight15 x = 0) ∧
      (∀ k x, post.df ≤ k → m.hist.DistanceCodes[k]? = some x → shiftRight15 x = 0) := by
  obtain ⟨post, dscan, hrun, P⟩ := prepare_spec m hwf hlen
  have aux : ∀ (codes : List Int) (n c k : Nat) (x : Int), codes.length = n →
      (∀ j, c ≤ j → j < n → codes[j]? = some 0) → c ≤ k → codes[k]? = some x →
      shiftRight15 x = 0 := by
    intro codes n c k x hn hz hck hx
    obtain ⟨hk, -⟩ := List.getElem?_eq_some.mp hx
    have := hz k hck (by omega)
    rw [hx] at this
    rw [Option.some.inj this]
    decide
  refine ⟨post, hrun, ?_, ?_⟩
  · intro k x hk hx
    exact aux m.hist.LiteralCodes 286 post.lf k x hwf.1 P.lit_zero hk hx
  · intro k x hk hx
    exact aux m.hist.DistanceCodes 30 dscan k x hwf.2.2.1 P.dis_zero
      (le_trans P.df_pos.2.2 hk) hx

set_option maxRecDepth 100000 in
/-- The statement of `no_used_symbol_dropped` at `memPacked`. -/
theorem no_used_symbol_dropped_witness :
    memPacked.hist.WF ∧ 316 ≤ memPacked.source.length ∧
    ∃ post, prepareForCodeLenCode memPacked = some post ∧
      (∀ k x, post.lf ≤ k → memPacked.hist.LiteralCodes[k]? = some x →
        shiftRight15 x = 0) ∧
      (∀ k x, post.df ≤ k → memPacked.hist.DistanceCodes[k]? = some x →
        shiftRight15 x = 0) := by
  have hwf : memPacked.hist.WF := by decide
  have hlen : 316 ≤ memPacked.source.length := by decide
  exact ⟨hwf, hlen, no_used_symbol_dropped memPacked hwf hlen⟩

/-- C10: the returned distance count satisfies `1 ≤ df ≤ 30`. -/
theorem distance_count_bounds (m : Mem) (hwf : m.hist.WF)
    (hlen : 316 ≤ m.source.length) :
    ∃ post, prepareForCodeLenCode m = some post ∧ 1 ≤ post.df ∧ post.df ≤ 30 := by
  obtain ⟨post, dscan, hrun, P⟩ := prepare_spec m hwf hlen
  exact ⟨post, hrun, P.df_pos.1, P.df_pos.2.1⟩

set_option maxRecDepth 100000 in
/-- The statement of `distance_count_bounds` at scenario B. -/
theorem distance_count_bounds_witness :
    memB.hist.WF ∧ 316 ≤ memB.source.length ∧
    ∃ post, prepareForCodeLenCode memB = some post ∧ 1 ≤ post.df ∧ post.df ≤ 30 := by
  have hwf : memB.hist.WF := by decide
  have hlen : 316 ≤ memB.source.length := by decide
  exact ⟨hwf, hlen, distance_count_bounds memB hwf hlen⟩

/-! ## Bounds of the literal count -/

/-- Two scan results over the same entries coincide. -/
theorem scan_unique (codes : List Int) (n c d : Nat)
    (hzc : ∀ j, c ≤ j → j < n → codes[j]? = some 0)
    (htc : c ≠ 0 → ∃ y, codes[c - 1]? = some y ∧ y ≠ 0) (hc : c ≤ n)
    (hzd : ∀ j, d ≤ j → j < n → codes[j]? = some 0)
    (htd : d ≠ 0 → ∃ y, codes[d - 1]? = some y ∧ y ≠ 0) (hd : d ≤ n) : c = d := by
  have key : ∀ a b : Nat, a < b → b ≤ n →
      (∀ j, a ≤ j → j < n → codes[j]? = some 0) →
      (b ≠ 0 → ∃ y, codes[b - 1]? = some y ∧ y ≠ 0) → False := by
    intro a b hab hb hz ht
    obtain ⟨y, hy, hy0⟩ := ht (by omega)
    have := hz (b - 1) (by omega) (by omega)
    rw [hy] at this
    exact hy0 (Option.some.inj this)
  rcases Nat.lt_trichotomy c d with h | h | h
  · exact (key c d h hd hzc htd).elim
  · exact h
  · exact (key d c h hc hzd htc).elim

set_option maxRecDepth 100000 in
/-- C11, counterexample: in scenario C every literal entry is zero and the
returned literal count is 0, below 1. -/
theorem literal_count_bounds_counterexample :
    memC.hist.WF ∧ 316 ≤ memC.source.length ∧
    (prepareForCodeLenCode memC).map (fun post => post.lf) = some 0 ∧ ¬ (1 ≤ 0) :=
  ⟨by decide, by decide, by decide, by decide⟩

/-- C11, amended: the returned literal count lies in [0, 286]; it is 0
exactly when every literal entry is zero, and so lies in [1, 286] for every
histogram with a non-zero literal entry. -/
theorem literal_count_bounds (m : Mem) (hwf : m.hist.WF)
    (hlen : 316 ≤ m.source.length) :
    ∃ post, prepareForCodeLenCode m = some post ∧ post.lf ≤ 286 ∧
      (post.lf = 0 ↔ ∀ y ∈ m.hist.LiteralCodes, y = 0) ∧
      ((∃ y ∈ m.hist.LiteralCodes, y ≠ 0) → 1 ≤ post.lf) := by
  obtain ⟨post, dscan, hrun, P⟩ := prepare_spec m hwf hlen
  refine ⟨post, hrun, P.lf_le, P.lf_zero_iff hwf, ?_⟩
  rintro ⟨y, hy, hy0⟩
  by_contra hlt
  exact hy0 ((P.lf_zero_iff hwf).mp (by omega) y hy)

set_option maxRecDepth 100000 in
/-- In scenario A a literal entry is non-zero and the literal count lies in
[1, 286]. -/
theorem literal_count_bounds_witness :
    memA.hist.WF ∧ 316 ≤ memA.source.length ∧
    (∃ y ∈ memA.hist.LiteralCodes, y ≠ 0) ∧
    ∃ post, prepareForCodeLenCode memA = some post ∧ 1 ≤ post.lf ∧ post.lf ≤ 286 := by
  have hwf : memA.hist.WF := by decide
  have hlen : 316 ≤ memA.source.length := by decide
  have hne : ∃ y ∈ memA.hist.LiteralCodes, y ≠ 0 := by decide
  obtain ⟨post, hrun, hle, -, hpos⟩ := literal_count_bounds memA hwf hlen
  exact ⟨hwf, hlen, hne, post, hrun, hpos hne, hle⟩

/-! ## Independence from the prior memory -/

/-- C12: two runs on the same histogram, from any two buffers and any two
contents of the count cells, return the same counts and the same first
`lf + df` bytes. -/
theorem result_depends_on_histogram_only (m₁ m₂ : Mem) (hhist : m₁.hist = m₂.hist)
    (hwf : m₁.hist.WF) (hlen₁ : 316 ≤ m₁.source.length) (hlen₂ : 316 ≤ m₂.source.length) :
    ∃ post₁ post₂, prepareForCodeLenCode m₁ = some post₁ ∧
      prepareForCodeLenCode m₂ = some post₂ ∧
      post₁.lf = post₂.lf ∧ post₁.df = post₂.df ∧
      post₁.source.take (post₁.lf + post₁.df) = post₂.source.take (post₂.lf + post₂.df) := by
  have hwf₂ : m₂.hist.WF := hhist ▸ hwf
  obtain ⟨post₁, d₁, hrun₁, P₁⟩ := prepare_spec m₁ hwf hlen₁
  obtain ⟨post₂, d₂, hrun₂, P₂⟩ := prepare_spec m₂ hwf₂ hlen₂
  have hlf : post₁.lf = post₂.lf :=
    scan_unique m₁.hist.LiteralCodes 286 post₁.lf post₂.lf P₁.lit_zero P₁.lit_top P₁.lf_le
      (hhist ▸ P₂.lit_zero) (hhist ▸ P₂.lit_top) P₂.lf_le
  have hd : d₁ = d₂ :=
    scan_unique m₁.hist.DistanceCodes 30 d₁ d₂ P₁.dis_zero P₁.dis_top P₁.dscan_le
      (hhist ▸ P₂.dis_zero) (hhist ▸ P₂.dis_top) P₂.dscan_le
  have hdf : post₁.df = post₂.df := by
    rw [P₁.df_eq, P₂.df_eq, hd]
  refine ⟨post₁, post₂, hrun₁, hrun₂, hlf, hdf, ?_⟩
  apply List.ext_getElem?
  intro k
  rw [List.getElem?_take, List.getElem?_take, ← hlf, ← hdf]
  by_cases hk : k < post₁.lf + post₁.df
  · rw [if_pos hk, if_pos hk, P₁.bytes k, P₂.bytes k, ← hlf, ← hdf, ← hd, ← hhist]
    by_cases h1 : k < post₁.lf
    · rw [if_pos h1, if_pos h1]
    · rw [if_neg h1, if_neg h1, if_pos hk, if_pos hk]
  · rw [if_neg hk, if_neg hk]

set_option maxRecDepth 100000 in
/-- Scenario A run from `memA` and from `memA2`: same counts, same seven
bytes. -/
theorem result_depends_on_histogram_only_witness :
    memA.hist = memA2.hist ∧ memA.hist.WF ∧ 316 ≤ memA.source.length ∧
    316 ≤ memA2.source.length ∧ memA.source ≠ memA2.source ∧
    ∃ post₁ post₂, prepareForCodeLenCode memA = some post₁ ∧
      prepareForCodeLenCode memA2 = some post₂ ∧
      post₁.lf = post₂.lf ∧ post₁.df = post₂.df ∧
      post₁.source.take (post₁.lf + post₁.df) = post₂.source.take (post₂.lf + post₂.df) := by
  have hwf : memA.hist.WF := by decide
  have h1 : 316 ≤ memA.source.length := by decide
  have h2 : 316 ≤ memA2.source.length := by decide
  exact ⟨rfl, hwf, h1, h2, by decide,
    result_depends_on_histogram_only memA memA2 rfl hwf h1 h2⟩

/-! ## Empty literal alphabet -/

/-- C15: when all 286 literal entries are zero the returned literal count
is 0, so the distance segment starts at index 0: byte `k` is
`(uint8_t)(DistanceCodes[k] >> 15)` for every `k < df`, except that byte 0
is 1 when every distance entry is zero as well. -/
theorem empty_literal_alphabet (m : Mem) (hwf : m.hist.WF) (hlen : 316 ≤ m.source.length)
    (hzero : ∀ y ∈ m.hist.LiteralCodes, y = 0) :
    ∃ post, prepareForCodeLenCode m = some post ∧ post.lf = 0 ∧
      post.lf + post.df = post.df ∧
      ∀ k, k < post.df → ∃ x, m.hist.DistanceCodes[k]? = some x ∧
        post.source[k]? =
          some (if k = 0 ∧ ∀ y ∈ m.hist.DistanceCodes, y = 0 then 1 else extract x) := by
  obtain ⟨post, dscan, hrun, P⟩ := prepare_spec m hwf hlen
  have hlf : post.lf = 0 := (P.lf_zero_iff hwf).mpr hzero
  refine ⟨post, hrun, hlf, by omega, ?_⟩
  intro k hk
  obtain ⟨x, hx, hb⟩ := P.dis_byte hwf k hk
  refine ⟨x, hx, ?_⟩
  rw [hlf, Nat.zero_add] at hb
  rw [hb]
  by_cases hz : dscan = 0
  · have hall := (P.dscan_zero_iff hwf).mp hz
    have hk0 : k = 0 := by
      have := P.df_eq
      rw [if_pos hz] at this
      omega
    rw [if_pos hz, if_pos ⟨hk0, hall⟩]
  · have hall : ¬ ∀ y ∈ m.hist.DistanceCodes, y = 0 := fun h => hz ((P.dscan_zero_iff hwf).mpr h)
    rw [if_neg hz, if_neg (fun h => hall h.2)]

set_option maxRecDepth 100000 in
/-- Scenario B run through `empty_literal_alphabet`: the literal count is 0
and the whole output is the distance segment `[0,0,4]`. -/
theorem empty_literal_alphabet_scenarioB :
    memB.hist.WF ∧ 316 ≤ memB.source.length ∧ (∀ y ∈ memB.hist.LiteralCodes, y = 0) ∧
    (∃ post, prepareForCodeLenCode memB = some post ∧ post.lf = 0 ∧
      post.lf + post.df = post.df ∧
      ∀ k, k < post.df → ∃ x, memB.hist.DistanceCodes[k]? = some x ∧
        post.source[k]? =
          some (if k = 0 ∧ ∀ y ∈ memB.hist.DistanceCodes, y = 0 then 1 else extract x)) ∧
    (prepareForCodeLenCode memB).map (fun post => (post.lf, post.source.take post.df))
      = some (0, [0, 0, 4]) := by
  have hwf : memB.hist.WF := by decide
  have hlen : 316 ≤ memB.source.length := by decide
  have hzero : ∀ y ∈ memB.hist.LiteralCodes, y = 0 := by decide
  exact ⟨hwf, hlen, hzero, empty_literal_alphabet memB hwf hlen hzero, by decide⟩

/-! ## Extraction of negative words -/

/-- C17: for every entry value `x`, negative ones included, the byte
`(uint8_t)(x >> 15)` computed with the arithmetic shift is bits 15..22 of
the 32-bit word: `((x mod 2^32) / 2^15) mod 256`, the result of a logical
shift of the unsigned word. -/
theorem extract_sign_independent (x : Int) :
    extract x = (((x % 4294967296) / 32768) % 256).toNat := by
  unfold extract toUInt8
  rw [shiftRight15_eq_div]
  omega

/-- Four negative words and the bytes extracted from them. -/
theorem extract_negative_values :
    extract (-1) = 255 ∧ extract (-32768) = 255 ∧ extract (-32769) = 254 ∧
    extract (-2147483648) = 0 := by
  decide

/-! ## The fallback write -/

/-- The function is its two phases in sequence. -/
theorem prepare_eq_phases (m : Mem) :
    prepareForCodeLenCode m = (beforeFallback m).bind (afterFallback m) := by
  unfold prepareForCodeLenCode beforeFallback afterFallback
  cases scanLoop m.hist.LiteralCodes 286 with
  | none => rfl
  | some lit =>
    cases scanLoop m.hist.DistanceCodes 30 with
    | none => rfl
    | some dscan =>
      cases h1 : extractLoop m.hist.LiteralCodes 0 lit 65536 0 m.source with
      | none => simp [h1]
      | some source1 =>
        cases h2 : extractLoop m.hist.DistanceCodes lit (if dscan = 0 then 1 else dscan)
            65536 0 source1 with
        | none => simp [h1, h2]
        | some source2 => simp [h1, h2]

/-- The buffer before the fallback write holds pure extractions. -/
theorem beforeFallback_spec (m : Mem) (hwf : m.hist.WF) (hlen : 316 ≤ m.source.length) :
    ∃ s dscan, beforeFallback m = some s ∧ s.lit_num ≤ 286 ∧
      (dscan = 0 ↔ ∀ y ∈ m.hist.DistanceCodes, y = 0) ∧
      s.dis_num = (if dscan = 0 then 1 else dscan) ∧ s.dis_num ≤ 30 ∧
      s.insertOneDistance = (if dscan = 0 then 1 else 0) ∧
      s.source.length = m.source.length ∧
      ∀ k, s.source[k]? =
        if k < s.lit_num then (m.hist.LiteralCodes[k]?).map extract
        else if k < s.lit_num + s.dis_num then
          (m.hist.DistanceCodes[k - s.lit_num]?).map extract
        else m.source[k]? := by
  obtain ⟨hL, -, hD, -⟩ := hwf
  obtain ⟨lit, hlit, hlitle, -, -⟩ :=
    scanLoop_spec m.hist.LiteralCodes 286 (by omega) (by omega)
  obtain ⟨dscan, hdis, hdisle, hdz, hdt⟩ :=
    scanLoop_spec m.hist.DistanceCodes 30 (by omega) (by omega)
  have hdn : 1 ≤ (if dscan = 0 then 1 else dscan) ∧ (if dscan = 0 then 1 else dscan) ≤ 30 := by
    split <;> omega
  obtain ⟨out1, hout1, hl1, hb1⟩ :=
    extractLoop_spec m.hist.LiteralCodes 0 lit (by omega) (by omega) 65536 0 m.source
      (by omega) (by omega) (by omega)
  obtain ⟨out2, hout2, hl2, hb2⟩ :=
    extractLoop_spec m.hist.DistanceCodes lit (if dscan = 0 then 1 else dscan) (by omega)
      (by omega) 65536 0 out1 (by omega) (by omega) (by omega)
  refine ⟨⟨out2, lit, if dscan = 0 then 1 else dscan, if dscan = 0 then 1 else 0⟩, dscan,
    ?_, hlitle, scan_zero_iff m.hist.DistanceCodes 30 dscan hD hdz hdt, rfl, hdn.2, rfl,
    (by show out2.length = m.source.length; omega), ?_⟩
  · simp [beforeFallback, hlit, hdis, hout1, hout2]
  · intro k
    show out2[k]? = _
    rw [hb2 k, hb1 k]
    by_cases h1 : k < lit
    · have h3 : ¬ (lit + 0 ≤ k ∧ k < lit + (if dscan = 0 then 1 else dscan)) := by omega
      simp [h1, h3]
    · by_cases h2 : k < lit + (if dscan = 0 then 1 else dscan)
      · have h3 : lit + 0 ≤ k ∧ k < lit + (if dscan = 0 then 1 else dscan) := by omega
        simp only [if_pos h3, if_neg h1, if_pos h2]
      · have h3 : ¬ (lit + 0 ≤ k ∧ k < lit + (if dscan = 0 then 1 else dscan)) := by omega
        have h4 : ¬ (0 + 0 ≤ k ∧ k < 0 + lit) := by omega
        simp only [if_neg h3, if_neg h1, if_neg h2, if_neg h4]

/-- C16: the fallback write `source[lit_num] = 1` is performed exactly when
no distance entry is non-zero; when it is performed the byte that the
extraction loop had put at that index is 0; every literal byte is always
the extraction of its entry, and when the write is not performed the buffer
is left as the extraction loops made it, every distance byte being the
extraction of its entry. -/
theorem fallback_fires_iff (m : Mem) (hwf : m.hist.WF) (hlen : 316 ≤ m.source.length) :
    ∃ s post, beforeFallback m = some s ∧ prepareForCodeLenCode m = some post ∧
      post.lf = s.lit_num ∧ post.df = s.dis_num ∧
      (s.insertOneDistance ≠ 0 ↔ ∀ y ∈ m.hist.DistanceCodes, y = 0) ∧
      (s.insertOneDistance ≠ 0 →
        s.source[post.lf]? = some 0 ∧ post.source = s.source.set post.lf 1 ∧
        post.source[post.lf]? = some 1) ∧
      (s.insertOneDistance = 0 → post.source = s.source ∧
        ∀ k, k < post.df → ∃ x, m.hist.DistanceCodes[k]? = some x ∧
          post.source[post.lf + k]? = some (extract x)) ∧
      (∀ k, k < post.lf → ∃ x, m.hist.LiteralCodes[k]? = some x ∧
        post.source[k]? = some (extract x)) := by
  obtain ⟨s, dscan, hs, hlit, hziff, hdn, hdn30, hins, hslen, hbytes⟩ :=
    beforeFallback_spec m hwf hlen
  have hrun := prepare_eq_phases m
  rw [hs] at hrun
  have hLlen := hwf.1
  have hDlen := hwf.2.2.1
  have hlitbyte : ∀ k, k < s.lit_num → ∃ x, m.hist.LiteralCodes[k]? = some x ∧
      s.source[k]? = some (extract x) := by
    intro k hk
    have hlt : k < m.hist.LiteralCodes.length := by omega
    refine ⟨m.hist.LiteralCodes[k], List.getElem?_eq_getElem hlt, ?_⟩
    rw [hbytes k]
    simp [hk, List.getElem?_eq_getElem hlt]
  have hdisbyte : ∀ k, k < s.dis_num → ∃ x, m.hist.DistanceCodes[k]? = some x ∧
      s.source[s.lit_num + k]? = some (extract x) := by
    intro k hk
    have hlt : k < m.hist.DistanceCodes.length := by omega
    refine ⟨m.hist.DistanceCodes[k], List.getElem?_eq_getElem hlt, ?_⟩
    rw [hbytes (s.lit_num + k)]
    have h1 : ¬ s.lit_num + k < s.lit_num := by omega
    have h2 : s.lit_num + k < s.lit_num + s.dis_num := by omega
    simp [h1, h2, List.getElem?_eq_getElem hlt]
  by_cases hz : dscan = 0
  · have hins1 : s.insertOneDistance = 1 := by rw [hins, if_pos hz]
    have hdn1 : s.dis_num = 1 := by rw [hdn, if_pos hz]
    have hst : s.lit_num < s.source.length := by omega
    have hpost : prepareForCodeLenCode m
        = some ⟨m.hist, s.source.set s.lit_num 1, s.lit_num, s.dis_num⟩ := by
      rw [hrun]
      simp [afterFallback, hins1, store, hst]
    refine ⟨s, _, hs, hpost, rfl, rfl, ?_, ?_, ?_, ?_⟩
    · rw [hins1]
      exact ⟨fun _ => hziff.mp hz, fun _ => by decide⟩
    · intro _
      refine ⟨?_, rfl, ?_⟩
      · obtain ⟨x, hx, hb⟩ := hdisbyte 0 (by omega)
        have hx0 : x = 0 := hziff.mp hz x (List.getElem?_mem hx)
        rw [Nat.add_zero, hx0] at hb
        exact hb
      · show (s.source.set s.lit_num 1)[s.lit_num]? = some 1
        simp [hst]
    · intro h0
      rw [hins1] at h0
      exact absurd h0 (by decide)
    · intro k hk
      have hk' : k < s.lit_num := hk
      obtain ⟨x, hx, hb⟩ := hlitbyte k hk'
      refine ⟨x, hx, ?_⟩
      show (s.source.set s.lit_num 1)[k]? = some (extract x)
      rw [List.getElem?_set, if_neg (by omega : ¬ s.lit_num = k)]
      exact hb
  · have hins0 : s.insertOneDistance = 0 := by rw [hins, if_neg hz]
    have hpost : prepareForCodeLenCode m
        = some ⟨m.hist, s.source, s.lit_num, s.dis_num⟩ := by
      rw [hrun]
      simp [afterFallback, hins0]
    refine ⟨s, _, hs, hpost, rfl, rfl, ?_, ?_, ?_, hlitbyte⟩
    · rw [hins0]
      exact ⟨fun h => absurd rfl h, fun h => absurd (hziff.mpr h) hz⟩
    · intro h
      exact absurd hins0 h
    · intro _
      exact ⟨rfl, hdisbyte⟩

set_option maxRecDepth 100000 in
/-- In scenario C the fallback write is performed: the byte at index `lf`
is 0 before it and 1 after it. -/
theorem fallback_fires_iff_scenarioC :
    memC.hist.WF ∧ 316 ≤ memC.source.length ∧ (∀ y ∈ memC.hist.DistanceCodes, y = 0) ∧
    ∃ s post, beforeFallback memC = some s ∧ prepareForCodeLenCode memC = some post ∧
      s.insertOneDistance ≠ 0 ∧ s.source[post.lf]? = some 0 ∧
      post.source[post.lf]? = some 1 := by
  have hwf : memC.hist.WF := by decide
  have hlen : 316 ≤ memC.source.length := by decide
  have hzero : ∀ y ∈ memC.hist.DistanceCodes, y = 0 := by decide
  obtain ⟨s, post, hs, hrun, -, -, hiff, hfire, -, -⟩ := fallback_fires_iff memC hwf hlen
  have hins := hiff.mpr hzero
  exact ⟨hwf, hlen, hzero, s, post, hs, hrun, hins, (hfire hins).1, (hfire hins).2.2⟩

/-! ## The access log -/

/-- Dropping the log of `scanLoopLog` gives `scanLoop`. -/
theorem scanLoopLog_fst (rd : Nat → Access) (codes : List Int) (n : Nat) :
    (scanLoopLog rd codes n).map Prod.fst = scanLoop codes n := by
  induction n with
  | zero => rfl
  | succ n ih =>
    unfold scanLoopLog scanLoop
    cases codes[n]? with
    | none => rfl
    | some c =>
      by_cases hc : c ≠ 0
      · simp [hc]
      · simp only [if_neg hc, Option.map_map]
        exact ih

/-- Dropping the log of `extractLoopLog` gives `extractLoop`. -/
theorem extractLoopLog_fst (rd : Nat → Access) (codes : List Int) (base num fuel : Nat) :
    ∀ (i : Nat) (source : List Nat),
      (extractLoopLog rd codes base num fuel i source).map Prod.fst
        = extractLoop codes base num fuel i source := by
  induction fuel with
  | zero => intro i source; rfl
  | succ fuel ih =>
    intro i source
    unfold extractLoopLog extractLoop
    by_cases hlt : i < num
    · simp only [if_pos hlt]
      cases codes[i]? with
      | none => rfl
      | some c =>
        dsimp only
        cases store source (base + i) (extract c) with
        | none => rfl
        | some source1 =>
          dsimp only
          rw [Option.map_map]
          exact ih _ source1
    · simp [hlt]

/-- Dropping the log of `prepareLog` gives `prepareForCodeLenCode`, on every
memory. -/
theorem prepareLog_fst (m : Mem) :
    (prepareLog m).map Prod.fst = prepareForCodeLenCode m := by
  unfold prepareLog prepareForCodeLenCode
  rw [← scanLoopLog_fst Access.readLiteral m.hist.LiteralCodes 286,
    ← scanLoopLog_fst Access.readDistance m.hist.DistanceCodes 30]
  cases scanLoopLog Access.readLiteral m.hist.LiteralCodes 286 with
  | none => rfl
  | some r1 =>
    obtain ⟨lit, log1⟩ := r1
    cases scanLoopLog Access.readDistance m.hist.DistanceCodes 30 with
    | none => rfl
    | some r2 =>
      obtain ⟨dscan, log2⟩ := r2
      simp only [Option.map_some', Option.bind_eq_bind, Option.some_bind]
      rw [← extractLoopLog_fst Access.readLiteral m.hist.LiteralCodes 0 lit 65536 0 m.source]
      cases extractLoopLog Access.readLiteral m.hist.LiteralCodes 0 lit 65536 0 m.source with
      | none => rfl
      | some r3 =>
        obtain ⟨source1, log3⟩ := r3
        simp only [Option.map_some', Option.some_bind]
        rw [← extractLoopLog_fst Access.readDistance m.hist.DistanceCodes lit
          (if dscan = 0 then 1 else dscan) 65536 0 source1]
        cases extractLoopLog Access.readDistance m.hist.DistanceCodes lit
            (if dscan = 0 then 1 else dscan) 65536 0 source1 with
        | none => rfl
        | some r4 =>
          obtain ⟨source2, log4⟩ := r4
          simp only [Option.map_some', Option.some_bind]
          by_cases hz : dscan = 0
          · simp only [hz, if_true]
            cases store source2 lit 1 with
            | none => rfl
            | some source3 => rfl
          · simp [hz]

/-- The accesses of the scan: reads below the start index and, at the
break, the assignment of `i + 1`. -/
theorem scanLoopLog_mem (rd : Nat → Access) (codes : List Int) (n : Nat) :
    ∀ r, scanLoopLog rd codes n = some r → ∀ a ∈ r.2,
      (∃ j, j < n ∧ a = rd j) ∨ (∃ v, v ≤ n ∧ a = Access.setCounter v) := by
  induction n with
  | zero =>
    intro r hr a ha
    simp only [scanLoopLog, Option.some.injEq] at hr
    subst hr
    simp at ha
  | succ n ih =>
    intro r hr a ha
    unfold scanLoopLog at hr
    cases hc : codes[n]? with
    | none => simp [hc] at hr
    | some c =>
      simp only [hc] at hr
      by_cases hc0 : c ≠ 0
      · simp only [if_pos hc0, Option.some.injEq] at hr
        subst hr
        simp only [List.mem_cons, List.mem_singleton, List.not_mem_nil, or_false] at ha
        rcases ha with rfl | rfl
        · exact Or.inl ⟨n, by omega, rfl⟩
        · exact Or.inr ⟨n + 1, le_refl _, rfl⟩
      · simp only [if_neg hc0, Option.map_eq_some'] at hr
        obtain ⟨r', hr', rfl⟩ := hr
        simp only [List.mem_cons] at ha
        rcases ha with rfl | ha
        · exact Or.inl ⟨n, by omega, rfl⟩
        · rcases ih r' hr' a ha with ⟨j, hj, rfl⟩ | ⟨v, hv, rfl⟩
          · exact Or.inl ⟨j, by omega, rfl⟩
          · exact Or.inr ⟨v, by omega, rfl⟩

/-- The accesses of the extraction loop: for every counter value `j` from
the start up to `num`, the read of `codes[j]`, the write of
`source[base + j]` and the increment to `j + 1`; nothing else. -/
theorem extractLoopLog_spec (rd : Nat → Access) (codes : List Int) (base num : Nat)
    (hnum : num ≤ codes.length) (hb : num < 65536) (fuel : Nat) :
    ∀ (i : Nat) (source : List Nat), i ≤ num → num - i < fuel →
      base + num ≤ source.length →
      ∃ r, extractLoopLog rd codes base num fuel i source = some r ∧
        r.1.length = source.length ∧
        ∀ a, a ∈ r.2 ↔ ∃ j, i ≤ j ∧ j < num ∧
          (a = rd j ∨ a = Access.writeSource (base + j) ∨ a = Access.setCounter (j + 1)) := by
  induction fuel with
  | zero => intro i source _ h; omega
  | succ fuel ih =>
    intro i source hi hfuel hlen
    by_cases hlt : i < num
    · have hci : i < codes.length := by omega
      have hsi : base + i < source.length := by omega
      obtain ⟨r, hr, hl, hmem⟩ := ih (i + 1) (source.set (base + i) (extract codes[i]))
        (by omega) (by omega) (by simpa using hlen)
      have hmod : (i + 1) % 65536 = i + 1 := Nat.mod_eq_of_lt (by omega)
      refine ⟨(r.1, rd i :: Access.writeSource (base + i) :: Access.setCounter (i + 1) :: r.2),
        ?_, by simpa using hl, ?_⟩
      · simp [extractLoopLog, hlt, List.getElem?_eq_getElem hci, store, hsi, hmod, hr]
      · intro a
        simp only [List.mem_cons, hmem a]
        constructor
        · rintro (h | h | h | ⟨j, hj1, hj2, h⟩)
          · exact ⟨i, le_refl _, hlt, Or.inl h⟩
          · exact ⟨i, le_refl _, hlt, Or.inr (Or.inl h)⟩
          · exact ⟨i, le_refl _, hlt, Or.inr (Or.inr h)⟩
          · exact ⟨j, by omega, hj2, h⟩
        · rintro ⟨j, hj1, hj2, h⟩
          by_cases hji : j = i
          · subst hji
            rcases h with h | h | h
            · exact Or.inl h
            · exact Or.inr (Or.inl h)
            · exact Or.inr (Or.inr (Or.inl h))
          · exact Or.inr (Or.inr (Or.inr ⟨j, by omega, hj2, h⟩))
    · refine ⟨(source, []), by simp [extractLoopLog, hlt], rfl, ?_⟩
      intro a
      constructor
      · intro h
        simp at h
      · rintro ⟨j, hj1, hj2, -⟩
        omega

/-- On a well-formed histogram and a buffer of at least 316 bytes the logged
run returns the result of the function, every access is within bounds, and
the buffer indices written are exactly those below `lf + df`. -/
theorem prepareLog_spec (m : Mem) (hwf : m.hist.WF) (hlen : 316 ≤ m.source.length) :
    ∃ post log, prepareLog m = some (post, log) ∧ prepareForCodeLenCode m = some post ∧
      post.lf ≤ 286 ∧ 1 ≤ post.df ∧ post.df ≤ 30 ∧
      (∀ a ∈ log, a.inBounds post.lf post.df) ∧
      (∀ k, Access.writeSource k ∈ log ↔ k < post.lf + post.df) := by
  obtain ⟨hL, -, hD, -⟩ := hwf
  obtain ⟨lit, hlit, hlitle, -, -⟩ :=
    scanLoop_spec m.hist.LiteralCodes 286 (by omega) (by omega)
  obtain ⟨dscan, hdis, hdisle, -, -⟩ :=
    scanLoop_spec m.hist.DistanceCodes 30 (by omega) (by omega)
  have h1 := scanLoopLog_fst Access.readLiteral m.hist.LiteralCodes 286
  rw [hlit, Option.map_eq_some'] at h1
  obtain ⟨⟨lit', log1⟩, hlog1, hlit'⟩ := h1
  have h2 := scanLoopLog_fst Access.readDistance m.hist.DistanceCodes 30
  rw [hdis, Option.map_eq_some'] at h2
  obtain ⟨⟨dscan', log2⟩, hlog2, hdscan'⟩ := h2
  simp only at hlit' hdscan'
  subst hlit' hdscan'
  have hm1 := scanLoopLog_mem Access.readLiteral m.hist.LiteralCodes 286 _ hlog1
  have hm2 := scanLoopLog_mem Access.readDistance m.hist.DistanceCodes 30 _ hlog2
  simp only at hm1 hm2
  have hdn : 1 ≤ (if dscan' = 0 then 1 else dscan') ∧
      (if dscan' = 0 then 1 else dscan') ≤ 30 := by
    split <;> omega
  obtain ⟨⟨out1, log3⟩, hout1, hl1, hm3⟩ :=
    extractLoopLog_spec Access.readLiteral m.hist.LiteralCodes 0 lit' (by omega) (by omega)
      65536 0 m.source (by omega) (by omega) (by omega)
  simp only at hl1 hm3
  obtain ⟨⟨out2, log4⟩, hout2, hl2, hm4⟩ :=
    extractLoopLog_spec Access.readDistance m.hist.DistanceCodes lit'
      (if dscan' = 0 then 1 else dscan') (by omega) (by omega) 65536 0 out1 (by omega)
      (by omega) (by omega)
  simp only at hl2 hm4
  have hst : lit' < out2.length := by omega
  have hrunlog : prepareLog m = some
      (⟨m.hist, if dscan' = 0 then out2.set lit' 1 else out2, lit',
        if dscan' = 0 then 1 else dscan'⟩,
       log1 ++ log2 ++ log3 ++ log4 ++
        (if dscan' = 0 then [Access.writeSource lit'] else [])) := by
    by_cases hz : dscan' = 0
    · subst hz
      simp [prepareLog, hlog1, hlog2] at hout1 hout2 ⊢
      simp [hout1, hout2, store, hst]
    · simp [prepareLog, hlog1, hlog2, hz] at hout1 hout2 ⊢
      simp [hout1, hout2]
  have hrun := prepareLog_fst m
  rw [hrunlog] at hrun
  have hbounds : ∀ a ∈ log1 ++ log2 ++ log3 ++ log4 ++
      (if dscan' = 0 then [Access.writeSource lit'] else []),
      a.inBounds lit' (if dscan' = 0 then 1 else dscan') := by
    intro a ha
    simp only [List.mem_append] at ha
    rcases ha with (((ha | ha) | ha) | ha) | ha
    · rcases hm1 a ha with ⟨j, hj, rfl⟩ | ⟨v, hv, rfl⟩
      · exact hj
      · show v < 65536
        omega
    · rcases hm2 a ha with ⟨j, hj, rfl⟩ | ⟨v, hv, rfl⟩
      · exact hj
      · show v < 65536
        omega
    · obtain ⟨j, -, hj, rfl | rfl | rfl⟩ := (hm3 a).mp ha
      · show j < 286
        omega
      · show 0 + j < lit' + _
        omega
      · show j + 1 < 65536
        omega
    · obtain ⟨j, -, hj, rfl | rfl | rfl⟩ := (hm4 a).mp ha
      · show j < 30
        omega
      · show lit' + j < lit' + _
        omega
      · show j + 1 < 65536
        omega
    · by_cases hz : dscan' = 0
      · rw [if_pos hz, List.mem_singleton] at ha
        subst ha
        show lit' < lit' + _
        omega
      · rw [if_neg hz] at ha
        simp at ha
  refine ⟨_, _, hrunlog, hrun.symm, hlitle, hdn.1, hdn.2, hbounds, ?_⟩
  intro k
  constructor
  · intro hk
    exact hbounds _ hk
  · intro hk
    have hk' : k < lit' + (if dscan' = 0 then 1 else dscan') := hk
    simp only [List.mem_append]
    by_cases hkl : k < lit'
    · refine Or.inl (Or.inl (Or.inr ((hm3 _).mpr ⟨k, Nat.zero_le k, hkl, Or.inr (Or.inl ?_)⟩)))
      rw [Nat.zero_add]
    · refine Or.inl (Or.inr ((hm4 _).mpr ⟨k - lit', Nat.zero_le _, by omega,
        Or.inr (Or.inl ?_)⟩))
      congr 1
      omega

/-! ## Frame and bounds -/

/-- C13: the buffer indices written by a run are exactly `0 .. lf + df - 1`;
the buffer keeps its length, every byte at an index `≥ lf + df` keeps its
prior value, and the histogram is unchanged. -/
theorem frame_condition (m : Mem) (hwf : m.hist.WF) (hlen : 316 ≤ m.source.length) :
    ∃ post log, prepareLog m = some (post, log) ∧ prepareForCodeLenCode m = some post ∧
      (∀ k, Access.writeSource k ∈ log ↔ k < post.lf + post.df) ∧
      post.source.length = m.source.length ∧
      (∀ k, post.lf + post.df ≤ k → post.source[k]? = m.source[k]?) ∧
      post.hist = m.hist := by
  obtain ⟨post, log, hlog, hrun, -, -, -, -, hwrites⟩ := prepareLog_spec m hwf hlen
  obtain ⟨post', dscan, hrun', P⟩ := prepare_spec m hwf hlen
  rw [hrun] at hrun'
  obtain rfl := Option.some.inj hrun'
  refine ⟨post, log, hlog, hrun, hwrites, P.length_eq, ?_, P.hist_eq⟩
  intro k hk
  rw [P.bytes k, if_neg (by omega), if_neg (by omega)]

set_option maxRecDepth 100000 in
/-- Scenario A run through `frame_condition`: behind the seven bytes of
output the 309 remaining bytes still hold `0xAA`. -/
theorem frame_condition_scenarioA :
    memA.hist.WF ∧ 316 ≤ memA.source.length ∧
    (∃ post log, prepareLog memA = some (post, log) ∧
      prepareForCodeLenCode memA = some post ∧
      (∀ k, Access.writeSource k ∈ log ↔ k < post.lf + post.df) ∧
      post.source.length = memA.source.length ∧
      (∀ k, post.lf + post.df ≤ k → post.source[k]? = memA.source[k]?) ∧
      post.hist = memA.hist) ∧
    (prepareForCodeLenCode memA).map (fun post => (post.lf + post.df, post.source.drop 7))
      = some (7, List.replicate 309 170) := by
  have hwf : memA.hist.WF := by decide
  have hlen : 316 ≤ memA.source.length := by decide
  exact ⟨hwf, hlen, frame_condition memA hwf hlen, by decide⟩

/-- C14: on every well-formed histogram and every buffer of at least 316
bytes the run returns (no undefined access, no loop left unfinished); every
read of a literal entry is at an index in 0..285 and of a distance entry at
an index in 0..29, every buffer write is at an index `< lf + df ≤ 316`, and
every value assigned to a `uint16_t` variable is below `2^16`, so that no
counter wraps around. -/
theorem total_and_in_bounds (m : Mem) (hwf : m.hist.WF) (hlen : 316 ≤ m.source.length) :
    ∃ post log, prepareLog m = some (post, log) ∧ prepareForCodeLenCode m = some post ∧
      post.lf + post.df ≤ 316 ∧
      ∀ a ∈ log,
        match a with
        | Access.readLiteral i => i < 286
        | Access.readDistance i => i < 30
        | Access.writeSource k => k < post.lf + post.df
        | Access.setCounter v => v < 65536 := by
  obtain ⟨post, log, hlog, hrun, hlf, -, hdf, hb, -⟩ := prepareLog_spec m hwf hlen
  refine ⟨post, log, hlog, hrun, by omega, ?_⟩
  intro a ha
  have := hb a ha
  cases a <;> exact this

set_option maxRecDepth 100000 in
/-- The statement of `total_and_in_bounds` at `memPacked`. -/
theorem total_and_in_bounds_witness :
    memPacked.hist.WF ∧ 316 ≤ memPacked.source.length ∧
    ∃ post log, prepareLog memPacked = some (post, log) ∧
      prepareForCodeLenCode memPacked = some post ∧
      post.lf + post.df ≤ 316 ∧
      ∀ a ∈ log,
        match a with
        | Access.readLiteral i => i < 286
        | Access.readDistance i => i < 30
        | Access.writeSource k => k < post.lf + post.df
        | Access.setCounter v => v < 65536 := by
  have hwf : memPacked.hist.WF := by decide
  have hlen : 316 ≤ memPacked.source.length := by decide
  exact ⟨hwf, hlen, total_and_in_bounds memPacked hwf hlen⟩

end CodeLenCode
